import Mathlib

/-
Verification of the DBexercise backtesting pipeline.

This file gives a shallow embedding of the computational core of the
repository (signal_generator.py, portfolio_generator.py, backtesting.py)
and proves, or refutes, the specification claims about it.

Modelling conventions:
* a dataframe is a list of rows over a list of timestamps (natural numbers,
  one unit = one calendar day); a cell is `Option ℚ`, `none` standing for a
  missing value (NaN);
* IEEE floats are modelled as exact rationals; a division by a zero count
  (which in numpy yields inf/NaN) is modelled as `none` (see `divByCount`);
* the pandas rebalance frequency string ('1M') is modelled by a period
  length `plen`: timestamp `t` belongs to period `t / plen`, and the
  resampled row of period `p` is labelled by the period end
  `(p + 1) * plen - 1`, matching the month-end labels pandas produces
  for the frequency 'M'.
-/

namespace DBexercise

abbrev Cell := Option ℚ
abbrev Row := List Cell
abbrev Table := List Row

/-- Cell access in a table: row `i`, column `a`; out-of-range reads are
missing values, as befits label-aligned dataframe semantics. -/
def cellOf (rows : Table) (i a : ℕ) : Cell := (rows.getD i []).getD a none

/-- Column `a` of a table. -/
def colOf (rows : Table) (a : ℕ) : Row := rows.map fun r => r.getD a none

/-- One row of `DataFrame.pct_change()`: the current prices divided by the
previous row's prices, minus one. -/
def pctRow (prev cur : List ℚ) : Row :=
  List.zipWith (fun x y => some (y / x - 1)) prev cur

/-- Rows after the first of `DataFrame.pct_change()`. -/
def pctChangeAux (prev : List ℚ) : List (List ℚ) → Table
  | [] => []
  | cur :: rest => pctRow prev cur :: pctChangeAux cur rest

/-- `DataFrame.pct_change()` on a fully populated price table: the first row
is undefined, row `t` holds `p_t / p_(t-1) - 1`. -/
def pctChange : List (List ℚ) → Table
  | [] => []
  | p :: ps => (p.map fun _ => none) :: pctChangeAux p ps

/-- The defined observations of column `col` whose timestamps fall in the
duration window `(t - w, t]` — the values a time-based pandas rolling
window aggregates at time `t` (`closed='right'`, NaN skipped). -/
def windowVals (w : ℕ) (idx : List ℕ) (col : Row) (t : ℕ) : List ℚ :=
  ((idx.zip col).filter fun q => decide (q.1 ≤ t) && decide (t < q.1 + w)).filterMap
    Prod.snd

/-- Mean of a list of observations; missing when there are none.  A pandas
rolling aggregation over an offset window has `min_periods = 1`, so one
defined observation suffices. -/
def meanOpt (xs : List ℚ) : Cell :=
  if xs.isEmpty then none else some (xs.sum / (xs.length : ℚ))

/-- `df.rolling('<w>d').mean()`: per cell, the mean of the defined entries of
that column within the trailing `w`-day window. -/
def rollingMean (w : ℕ) (idx : List ℕ) (rows : Table) : Table :=
  (idx.zip rows).map fun q =>
    (List.range q.2.length).map fun a => meanOpt (windowVals w idx (colOf rows a) q.1)

/-- `MomentumSignalGenerator._prices_to_signal`:
`prices_df.pct_change().rolling('%sd' % rolling_avg_days).mean()`. -/
def momentumSignal (w : ℕ) (idx : List ℕ) (prices : List (List ℚ)) : Table :=
  rollingMean w idx (pctChange prices)

/-- The resampled row of period `p`: per column, the first defined value
among the rows whose timestamp falls in period `p` (`GroupBy.first`
skips missing values). -/
def periodFirstRow (plen : ℕ) (idx : List ℕ) (rows : Table) (ncols p : ℕ) : Row :=
  (List.range ncols).map fun a =>
    (((idx.zip (colOf rows a)).filter fun q => decide (q.1 / plen = p)).filterMap
      Prod.snd).head?

/-- `signal_df.resample(period).first()`: one row per period from the first
to the last period of the index (empty periods included), labelled by the
period end. -/
def resampleFirst (plen : ℕ) (idx : List ℕ) (rows : Table) : List (ℕ × Row) :=
  match idx with
  | [] => []
  | t0 :: ts =>
      let pmin := t0 / plen
      let pmax := ts.getLastD t0 / plen
      let ncols := (rows.headD []).length
      (List.range (pmax + 1 - pmin)).map fun k =>
        ((pmin + k + 1) * plen - 1, periodFirstRow plen idx rows ncols (pmin + k))

/-- Comparison key of `DataFrame.rank(axis=1, ascending=False,
method='first')`: position `k` beats position `j` (whose value is `v`)
when `k` holds a defined value that is larger, or equal with `k` first. -/
def beatsAt (r : Row) (j : ℕ) (v : ℚ) (k : ℕ) : Bool :=
  match r.getD k none with
  | none => false
  | some w => decide (v < w ∨ (w = v ∧ k < j))

/-- The rank a defined value `v` at position `j` receives: one plus the
number of positions beating it. -/
def rankOfPos (r : Row) (j : ℕ) (v : ℚ) : ℕ :=
  1 + (List.range r.length).countP (beatsAt r j v)

/-- One row of `WeightedPortfolioGenerator._rank_signals` after resampling:
`rank(axis=1, ascending=False, method='first')`, missing values keeping
a missing rank. -/
def rankRow (r : Row) : Row :=
  (List.range r.length).map fun j =>
    match r.getD j none with
    | none => none
    | some v => some ((rankOfPos r j v : ℕ) : ℚ)

/-- One row of `WeightedPortfolioGenerator._assign_longshort`:
`np.where(rank_df <= cutoff, 1, -1)`.  A missing rank compares false in
numpy, hence receives `-1`. -/
def longshortRow (cutoff : ℚ) (r : Row) : List ℚ :=
  r.map fun c =>
    match c with
    | some v => if v ≤ cutoff then (1 : ℚ) else -1
    | none => -1

/-- `(longshort > 0).sum(axis=1)` for one row. -/
def countPos (r : List ℚ) : ℕ := r.countP fun x => decide (0 < x)

/-- `(longshort < 0).sum(axis=1)` for one row. -/
def countNeg (r : List ℚ) : ℕ := r.countP fun x => decide (x < 0)

/-- `x / n` with a leg count `n`: numpy produces a non-finite value when
`n = 0`, modelled here as a missing value. -/
def divByCount (x : ℚ) (n : ℕ) : Cell :=
  if n = 0 then none else some (x / (n : ℚ))

/-- One row of `EqualWeightedPortfolioGenerator._assign_weights`:
`np.where(longshort > 0, longshort * (1/longCount), longshort * (1/shortCount))`. -/
def assignWeightsRow (r : List ℚ) : Row :=
  r.map fun x => if 0 < x then divByCount x (countPos r) else divByCount x (countNeg r)

/-- One row of `weights.reindex(prices_df.index, method='bfill')`: the row
whose label is the first one at or after `t`; an all-missing row when no
label follows `t`. -/
def reindexBfillRow (ncols : ℕ) (wts : List (ℕ × Row)) (t : ℕ) : Row :=
  match wts.find? fun q => decide (t ≤ q.1) with
  | some q => q.2
  | none => List.replicate ncols none

/-- The period-level weight table of `WeightedPortfolioGenerator.generate_weights`
(signal, resample, rank, long/short split, equal weighting), rows labelled
by period end. -/
def periodWeights (w plen : ℕ) (split : ℚ) (idx : List ℕ) (prices : List (List ℚ)) :
    List (ℕ × Row) :=
  let ncols := (prices.headD []).length
  let ranks := (resampleFirst plen idx (momentumSignal w idx prices)).map fun q =>
    (q.1, rankRow q.2)
  let ls := ranks.map fun q => (q.1, longshortRow ((ncols : ℚ) * split) q.2)
  ls.map fun q => (q.1, assignWeightsRow q.2)

/-- `WeightedPortfolioGenerator.generate_weights`: the period-level weights
back-filled onto the daily price index. -/
def generateWeights (w plen : ℕ) (split : ℚ) (idx : List ℕ) (prices : List (List ℚ)) :
    Table :=
  let ncols := (prices.headD []).length
  idx.map fun t => reindexBfillRow ncols (periodWeights w plen split idx prices) t

/-- The row of a labelled weight table carrying the weights of period `p`
(the row labelled by the end of period `p`). -/
def weightRowForPeriod (plen : ℕ) (wts : List (ℕ × Row)) (p : ℕ) : Row :=
  ((wts.find? fun q => decide (q.1 = (p + 1) * plen - 1)).map Prod.snd).getD []

/-- Elementwise product; missing values propagate, as in pandas. -/
def mulOpt (a b : Cell) : Cell :=
  match a, b with
  | some x, some y => some (x * y)
  | _, _ => none

/-- pandas `cumprod`: missing entries stay missing and are skipped by the
running product. -/
def cumprodAux (acc : ℚ) : Row → Row
  | [] => []
  | none :: rest => none :: cumprodAux acc rest
  | some x :: rest => some (acc * x) :: cumprodAux (acc * x) rest

/-- `Series.cumprod()` with the default `skipna=True`. -/
def cumprodSkipNone (xs : Row) : Row := cumprodAux 1 xs

/-- One asset column of `WeightedPortfolioBacktester._get_pnls`:
`(1 + weights * returns).cumprod() - 1`. -/
def assetPnlCol (wcol rcol : Row) : Row :=
  (cumprodSkipNone ((List.zipWith mulOpt wcol rcol).map (Option.map fun x => 1 + x))).map
    (Option.map fun x => x - 1)

/-- `asset_pnls = (1 + daily_weights * prices.pct_change()).cumprod() - 1`,
assembled row-wise from its columns. -/
def assetPnls (ncols : ℕ) (weights pct : Table) : Table :=
  (List.range (min weights.length pct.length)).map fun i =>
    (List.range ncols).map fun a => (assetPnlCol (colOf weights a) (colOf pct a)).getD i none

/-- `Series.sum()` over a row with the default `skipna=True`. -/
def sumSkipNone (r : Row) : ℚ := (r.filterMap id).sum

/-- `total_pnl = asset_pnls.sum(axis=1)`. -/
def totalPnl (pnls : Table) : List ℚ := pnls.map sumSkipNone

/-- `WeightedPortfolioBacktester._get_pnls`. -/
def getPnls (ncols : ℕ) (prices : List (List ℚ)) (weights : Table) : Table × List ℚ :=
  let ap := assetPnls ncols weights (pctChange prices)
  (ap, totalPnl ap)

/-- Sum of the strictly positive entries of a weight row (the long leg). -/
def sumPos (r : Row) : ℚ := ((r.filterMap id).filter fun x => decide (0 < x)).sum

/-- Sum of the strictly negative entries of a weight row (the short leg). -/
def sumNeg (r : Row) : ℚ := ((r.filterMap id).filter fun x => decide (x < 0)).sum

/-- The ranks of a fully defined signal row, as natural numbers. -/
def rankFun (v : List ℚ) (j : ℕ) : ℕ := rankOfPos (v.map some) j (v.getD j 0)

/-- The list of ranks of a fully defined signal row. -/
def ranksOfRow (v : List ℚ) : List ℕ := (List.range v.length).map (rankFun v)

/-! ### List access helpers -/

theorem getD_map_of_lt {α β : Type} (f : α → β) (l : List α) (i : ℕ) (h : i < l.length)
    (d : β) (d0 : α) : (l.map f).getD i d = f (l.getD i d0) := by
  rw [List.getD_eq_getD_get?, List.getD_eq_getD_get?, List.get?_map,
    List.get?_eq_get h]
  rfl

theorem getD_map_range {α : Type} (f : ℕ → α) (n i : ℕ) (h : i < n) (d : α) :
    ((List.range n).map f).getD i d = f i := by
  rw [List.getD_eq_getD_get?, List.get?_map, List.get?_range h]
  rfl

theorem get?_zipWith {α β γ : Type} (f : α → β → γ) (l1 : List α) (l2 : List β) (i : ℕ) :
    (List.zipWith f l1 l2).get? i =
      match l1.get? i, l2.get? i with
      | some a, some b => some (f a b)
      | _, _ => none := by
  induction l1 generalizing l2 i with
  | nil => simp
  | cons a t ih =>
      cases l2 with
      | nil => cases i <;> simp
      | cons b t2 =>
          cases i with
          | zero => simp
          | succ n => simpa [List.get?_eq_getElem?] using ih t2 n

theorem getD_zipWith_of_lt {α β γ : Type} (f : α → β → γ) (l1 : List α) (l2 : List β)
    (i : ℕ) (h1 : i < l1.length) (h2 : i < l2.length) (d : γ) (d1 : α) (d2 : β) :
    (List.zipWith f l1 l2).getD i d = f (l1.getD i d1) (l2.getD i d2) := by
  rw [List.getD_eq_getD_get?, List.getD_eq_getD_get?, List.getD_eq_getD_get?,
    get?_zipWith, List.get?_eq_get h1, List.get?_eq_get h2]
  rfl

theorem getD_mem_of_lt {α : Type} (l : List α) (i : ℕ) (h : i < l.length) (d : α) :
    l.getD i d ∈ l := by
  rw [List.getD_eq_getD_get?, List.get?_eq_get h]
  exact List.get_mem l _ _

/-! ### Claim C4: long/short assignment by rank cutoff -/

/-- Claim C4. For every rank-table row with `N` assets, `_assign_longshort`
assigns `+1` exactly to the positions whose rank is defined and at most
`N * longshort_split`, and `-1` to every other position; and on the
spec's literal example (monthly signals `0.14, 0.12, 0.05`, split `0.5`,
cutoff `1.5`) the ranks are `[1, 2, 3]`, only Asset 1 is long, and the
equal weights are `+1, -1/2, -1/2`. -/
theorem claim4_longshort_cutoff (rr : Row) (N : ℕ) (split : ℚ) (hN : rr.length = N)
    (j : ℕ) (hj : j < N) :
    ((longshortRow ((N : ℚ) * split) rr).getD j 0 = 1 ↔
      ∃ v, rr.getD j none = some v ∧ v ≤ (N : ℚ) * split) ∧
    ((longshortRow ((N : ℚ) * split) rr).getD j 0 = -1 ↔
      ¬∃ v, rr.getD j none = some v ∧ v ≤ (N : ℚ) * split) ∧
    rankRow [some (14/100), some (12/100), some (5/100)] = [some 1, some 2, some 3] ∧
    longshortRow ((3 : ℚ) * (1/2)) [some 1, some 2, some 3] = [1, -1, -1] ∧
    assignWeightsRow (longshortRow ((3 : ℚ) * (1/2)) [some 1, some 2, some 3]) =
      [some 1, some (-(1/2)), some (-(1/2))] := by
  have hj' : j < rr.length := hN ▸ hj
  have hcell : (longshortRow ((N : ℚ) * split) rr).getD j 0 =
      match rr.getD j none with
      | some v => if v ≤ (N : ℚ) * split then (1 : ℚ) else -1
      | none => -1 :=
    getD_map_of_lt _ rr j hj' 0 none
  refine ⟨?_, ?_, ?_, ?_, ?_⟩
  · rw [hcell]
    cases h : rr.getD j none with
    | none => simp; norm_num
    | some v =>
        by_cases hv : v ≤ (N : ℚ) * split <;> simp [hv] <;> norm_num
  · rw [hcell]
    cases h : rr.getD j none with
    | none => simp
    | some v =>
        by_cases hv : v ≤ (N : ℚ) * split <;> simp [hv] <;> norm_num
  · with_unfolding_all decide
  · with_unfolding_all decide
  · with_unfolding_all decide

/-- Witness for C4 at the concrete row `[some 1, some 2]`, `N = 2`,
`split = 1`, `j = 0`. -/
theorem claim4_witness :
    ((longshortRow (((2 : ℕ) : ℚ) * 1) [some 1, some 2]).getD 0 0 = 1 ↔
      ∃ v, ([some 1, some 2] : Row).getD 0 none = some v ∧ v ≤ ((2 : ℕ) : ℚ) * 1) ∧
    ((longshortRow (((2 : ℕ) : ℚ) * 1) [some 1, some 2]).getD 0 0 = -1 ↔
      ¬∃ v, ([some 1, some 2] : Row).getD 0 none = some v ∧ v ≤ ((2 : ℕ) : ℚ) * 1) ∧
    rankRow [some (14/100), some (12/100), some (5/100)] = [some 1, some 2, some 3] ∧
    longshortRow ((3 : ℚ) * (1/2)) [some 1, some 2, some 3] = [1, -1, -1] ∧
    assignWeightsRow (longshortRow ((3 : ℚ) * (1/2)) [some 1, some 2, some 3]) =
      [some 1, some (-(1/2)), some (-(1/2))] :=
  claim4_longshort_cutoff [some 1, some 2] 2 1 rfl 0 (by decide)

/-! ### Claim C2: leg sums of the equal-weighting step -/

theorem longshortRow_mem (cutoff : ℚ) (r : Row) :
    ∀ x ∈ longshortRow cutoff r, x = 1 ∨ x = -1 := by
  intro x hx
  rcases List.mem_map.mp hx with ⟨c, _, rfl⟩
  cases c with
  | none => right; rfl
  | some v => by_cases hv : v ≤ cutoff <;> simp [hv]

theorem sumPos_cons_some (y : ℚ) (t : Row) :
    sumPos (some y :: t) = (if 0 < y then y else 0) + sumPos t := by
  by_cases h : (0 : ℚ) < y <;> simp [sumPos, List.filterMap_cons, List.filter_cons, h]

theorem sumNeg_cons_some (y : ℚ) (t : Row) :
    sumNeg (some y :: t) = (if y < 0 then y else 0) + sumNeg t := by
  by_cases h : y < (0 : ℚ) <;> simp [sumNeg, List.filterMap_cons, List.filter_cons, h]

theorem leg_sums_aux (np nn : ℕ) (hnp : np ≠ 0) (hnn : nn ≠ 0) (l : List ℚ)
    (hl : ∀ x ∈ l, x = 1 ∨ x = -1) :
    sumPos (l.map fun x => if 0 < x then divByCount x np else divByCount x nn) =
      ((l.countP fun x => decide (0 < x) : ℕ) : ℚ) / (np : ℚ) ∧
    sumNeg (l.map fun x => if 0 < x then divByCount x np else divByCount x nn) =
      -(((l.countP fun x => decide (x < 0) : ℕ) : ℚ) / (nn : ℚ)) := by
  have hnp' : (0 : ℚ) < (np : ℚ) := by exact_mod_cast Nat.pos_of_ne_zero hnp
  have hnn' : (0 : ℚ) < (nn : ℚ) := by exact_mod_cast Nat.pos_of_ne_zero hnn
  have hnp0 : (np : ℚ) ≠ 0 := ne_of_gt hnp'
  have hnn0 : (nn : ℚ) ≠ 0 := ne_of_gt hnn'
  induction l with
  | nil => simp [sumPos, sumNeg]
  | cons x xs ih =>
      obtain ⟨ih1, ih2⟩ := ih fun y hy => hl y (List.mem_cons_of_mem x hy)
      rcases hl x (List.mem_cons_self x xs) with rfl | rfl
      · have hcell : (if (0 : ℚ) < 1 then divByCount 1 np else divByCount 1 nn) =
            some (1 / (np : ℚ)) := by
          rw [if_pos one_pos, divByCount, if_neg hnp]
        have hppos : (0 : ℚ) < 1 / (np : ℚ) := by positivity
        constructor
        · rw [List.map_cons, hcell, sumPos_cons_some, if_pos hppos, ih1,
            List.countP_cons]
          norm_num
          field_simp
          ring
        · rw [List.map_cons, hcell, sumNeg_cons_some, if_neg (by linarith), ih2,
            List.countP_cons]
          norm_num
      · have hcell : (if (0 : ℚ) < -1 then divByCount (-1) np else divByCount (-1) nn) =
            some (-(1 / (nn : ℚ))) := by
          rw [if_neg (by norm_num), divByCount, if_neg hnn, neg_div]
        have hpneg : -(1 / (nn : ℚ)) < 0 := by
          have : (0 : ℚ) < 1 / (nn : ℚ) := by positivity
          linarith
        constructor
        · rw [List.map_cons, hcell, sumPos_cons_some, if_neg (by linarith), ih1,
            List.countP_cons]
          norm_num
        · rw [List.map_cons, hcell, sumNeg_cons_some, if_pos hpneg, ih2,
            List.countP_cons]
          norm_num
          field_simp

/-- Claim C2. For every weight row produced by `_assign_weights` on a
long/short row with both legs non-empty, the positive entries sum to
exactly `1` and the negative entries to exactly `-1`; in particular both
sums are within the spec's `1e-9` tolerance of `±1`. -/
theorem claim2_leg_sums (rr : Row) (cutoff : ℚ)
    (hpos : 0 < countPos (longshortRow cutoff rr))
    (hneg : 0 < countNeg (longshortRow cutoff rr)) :
    sumPos (assignWeightsRow (longshortRow cutoff rr)) = 1 ∧
    sumNeg (assignWeightsRow (longshortRow cutoff rr)) = -1 ∧
    |sumPos (assignWeightsRow (longshortRow cutoff rr)) - 1| ≤ 1 / 1000000000 ∧
    |sumNeg (assignWeightsRow (longshortRow cutoff rr)) + 1| ≤ 1 / 1000000000 := by
  set l := longshortRow cutoff rr with hl
  obtain ⟨h1, h2⟩ := leg_sums_aux (countPos l) (countNeg l)
    (Nat.pos_iff_ne_zero.mp hpos) (Nat.pos_iff_ne_zero.mp hneg) l
    (longshortRow_mem cutoff rr)
  have hcp : ((countPos l : ℕ) : ℚ) ≠ 0 := by
    exact_mod_cast Nat.pos_iff_ne_zero.mp hpos
  have hcn : ((countNeg l : ℕ) : ℚ) ≠ 0 := by
    exact_mod_cast Nat.pos_iff_ne_zero.mp hneg
  have e1 : sumPos (assignWeightsRow l) = 1 := by
    rw [assignWeightsRow, h1,
      show List.countP (fun x => decide (0 < x)) l = countPos l from rfl,
      div_self hcp]
  have e2 : sumNeg (assignWeightsRow l) = -1 := by
    rw [assignWeightsRow, h2,
      show List.countP (fun x => decide (x < 0)) l = countNeg l from rfl,
      div_self hcn]
  refine ⟨e1, e2, ?_, ?_⟩
  · rw [e1]; norm_num
  · rw [e2]; norm_num

/-- Witness for C2 at the rank row `[some 1, some 2]` with cutoff `1`. -/
theorem claim2_witness :
    sumPos (assignWeightsRow (longshortRow 1 [some 1, some 2])) = 1 ∧
    sumNeg (assignWeightsRow (longshortRow 1 [some 1, some 2])) = -1 ∧
    |sumPos (assignWeightsRow (longshortRow 1 [some 1, some 2])) - 1| ≤ 1 / 1000000000 ∧
    |sumNeg (assignWeightsRow (longshortRow 1 [some 1, some 2])) + 1| ≤ 1 / 1000000000 :=
  claim2_leg_sums [some 1, some 2] 1 (by decide) (by decide)

/-! ### Claim C8: empty legs degrade to finite weights, not errors -/

/-- Claim C8. When one leg of a long/short row is empty, `_assign_weights`
produces a fully defined, finite weight row: every cell of the row is the
other leg's equal weight (so the empty leg carries no weight at all, and
its contribution to the corresponding signed sum is zero).  The division
by the empty leg's zero count — modelled by `divByCount`, which returns
`none` for a non-finite numpy value — never reaches the output. -/
theorem claim8_empty_leg (rr : Row) (cutoff : ℚ) :
    (countPos (longshortRow cutoff rr) = 0 →
      (∀ j, j < rr.length →
        (assignWeightsRow (longshortRow cutoff rr)).getD j none =
          some (-(1 / (countNeg (longshortRow cutoff rr) : ℚ)))) ∧
      sumPos (assignWeightsRow (longshortRow cutoff rr)) = 0) ∧
    (countNeg (longshortRow cutoff rr) = 0 →
      (∀ j, j < rr.length →
        (assignWeightsRow (longshortRow cutoff rr)).getD j none =
          some (1 / (countPos (longshortRow cutoff rr) : ℚ))) ∧
      sumNeg (assignWeightsRow (longshortRow cutoff rr)) = 0) := by
  set l := longshortRow cutoff rr with hldef
  have hlen : l.length = rr.length := List.length_map rr _
  have hmem := longshortRow_mem cutoff rr
  constructor
  · intro h0
    have hall : ∀ x ∈ l, x = -1 := by
      intro x hx
      rcases hmem x hx with rfl | rfl
      · exfalso
        have : 0 < countPos l := List.countP_pos.mpr ⟨1, hx, by norm_num⟩
        omega
      · rfl
    have hcell : ∀ j, j < rr.length →
        (assignWeightsRow l).getD j none = some (-(1 / (countNeg l : ℚ))) := by
      intro j hj
      have hj' : j < l.length := hlen ▸ hj
      have hx : l.getD j 0 = -1 := hall _ (getD_mem_of_lt l j hj' 0)
      have hxm : (-1 : ℚ) ∈ l := hx ▸ getD_mem_of_lt l j hj' 0
      have hnn : countNeg l ≠ 0 := by
        have : 0 < countNeg l := List.countP_pos.mpr ⟨-1, hxm, by norm_num⟩
        omega
      rw [assignWeightsRow, getD_map_of_lt _ l j hj' none 0, hx,
        if_neg (by norm_num), divByCount, if_neg hnn, neg_div]
    refine ⟨hcell, ?_⟩
    rw [sumPos]
    have hnil : ((assignWeightsRow l).filterMap id).filter
        (fun x => decide (0 < x)) = [] := by
      rw [List.filter_eq_nil]
      intro y hy
      rw [assignWeightsRow, List.filterMap_map] at hy
      rcases List.mem_filterMap.mp hy with ⟨x, hxl, hfx⟩
      have hx := hall x hxl
      subst hx
      simp only [Function.comp] at hfx
      have hnn : countNeg l ≠ 0 := by
        have : 0 < countNeg l := List.countP_pos.mpr ⟨-1, hxl, by norm_num⟩
        omega
      rw [if_neg (by norm_num), divByCount, if_neg hnn] at hfx
      have hyv : y = (-1) / (countNeg l : ℚ) := by
        exact (Option.some.injEq _ _ ▸ hfx).symm
      have hnn' : (0 : ℚ) < (countNeg l : ℚ) := by
        exact_mod_cast Nat.pos_of_ne_zero hnn
      have : y < 0 := by
        rw [hyv, neg_div]
        have : (0 : ℚ) < 1 / (countNeg l : ℚ) := by positivity
        simp [one_div] at this ⊢
        positivity
      simp only [decide_eq_true_eq]
      linarith
    rw [hnil]
    rfl
  · intro h0
    have hall : ∀ x ∈ l, x = 1 := by
      intro x hx
      rcases hmem x hx with rfl | rfl
      · rfl
      · exfalso
        have : 0 < countNeg l := List.countP_pos.mpr ⟨-1, hx, by norm_num⟩
        omega
    have hcell : ∀ j, j < rr.length →
        (assignWeightsRow l).getD j none = some (1 / (countPos l : ℚ)) := by
      intro j hj
      have hj' : j < l.length := hlen ▸ hj
      have hx : l.getD j 0 = 1 := hall _ (getD_mem_of_lt l j hj' 0)
      have hxm : (1 : ℚ) ∈ l := hx ▸ getD_mem_of_lt l j hj' 0
      have hnp : countPos l ≠ 0 := by
        have : 0 < countPos l := List.countP_pos.mpr ⟨1, hxm, by norm_num⟩
        omega
      rw [assignWeightsRow, getD_map_of_lt _ l j hj' none 0, hx,
        if_pos one_pos, divByCount, if_neg hnp]
    refine ⟨hcell, ?_⟩
    rw [sumNeg]
    have hnil : ((assignWeightsRow l).filterMap id).filter
        (fun x => decide (x < 0)) = [] := by
      rw [List.filter_eq_nil]
      intro y hy
      rw [assignWeightsRow, List.filterMap_map] at hy
      rcases List.mem_filterMap.mp hy with ⟨x, hxl, hfx⟩
      have hx := hall x hxl
      subst hx
      simp only [Function.comp] at hfx
      have hnp : countPos l ≠ 0 := by
        have : 0 < countPos l := List.countP_pos.mpr ⟨1, hxl, by norm_num⟩
        omega
      rw [if_pos one_pos, divByCount, if_neg hnp] at hfx
      have hyv : y = 1 / (countPos l : ℚ) := by
        exact (Option.some.injEq _ _ ▸ hfx).symm
      have hnp' : (0 : ℚ) < (countPos l : ℚ) := by
        exact_mod_cast Nat.pos_of_ne_zero hnp
      have : 0 < y := by rw [hyv]; positivity
      simp only [decide_eq_true_eq]
      linarith
    rw [hnil]
    rfl

/-- Witness for C8: an all-short row (cutoff `0`) and an all-long row
(cutoff `1`). -/
theorem claim8_witness :
    ((∀ j, j < ([some 5, some 6] : Row).length →
        (assignWeightsRow (longshortRow 0 [some 5, some 6])).getD j none =
          some (-(1 / (countNeg (longshortRow 0 [some 5, some 6]) : ℚ)))) ∧
      sumPos (assignWeightsRow (longshortRow 0 [some 5, some 6])) = 0) ∧
    ((∀ j, j < ([some 1] : Row).length →
        (assignWeightsRow (longshortRow 1 [some 1])).getD j none =
          some (1 / (countPos (longshortRow 1 [some 1]) : ℚ))) ∧
      sumNeg (assignWeightsRow (longshortRow 1 [some 1])) = 0) :=
  ⟨(claim8_empty_leg [some 5, some 6] 0).1 (by decide),
   (claim8_empty_leg [some 1] 1).2 (by decide)⟩

/-! ### Claim C10: rows whose signals are all undefined -/

/-- Claim C10, amended. For a resampled signal row that is entirely
undefined, the rank row is indeed entirely undefined; however
`_assign_longshort` then places every asset in the short leg (`np.where`
sends a missing rank to `-1`), and `_assign_weights` assigns every asset
the weight `-1/N`.  The claim's consequence "no leg membership and no
weight is assigned" does not hold. -/
theorem claim10_amended (rr : Row) (cutoff : ℚ) (h : ∀ c ∈ rr, c = none) :
    rankRow rr = List.replicate rr.length none ∧
    longshortRow cutoff rr = List.replicate rr.length (-1) ∧
    assignWeightsRow (longshortRow cutoff rr) =
      List.replicate rr.length (some (-(1 / (rr.length : ℚ)))) := by
  have h1 : rankRow rr = List.replicate rr.length none := by
    rw [List.eq_replicate]
    refine ⟨by simp [rankRow], ?_⟩
    intro b hb
    rcases List.mem_map.mp hb with ⟨j, hj, rfl⟩
    have hj' : j < rr.length := List.mem_range.mp hj
    rw [h _ (getD_mem_of_lt rr j hj' none)]
  have h2 : longshortRow cutoff rr = List.replicate rr.length (-1) := by
    rw [List.eq_replicate]
    refine ⟨List.length_map rr _, ?_⟩
    intro b hb
    rcases List.mem_map.mp hb with ⟨c, hc, rfl⟩
    rw [h c hc]
  refine ⟨h1, h2, ?_⟩
  rcases Nat.eq_zero_or_pos rr.length with hn | hn
  · rw [List.length_eq_zero.mp hn] at h2 ⊢
    simp at h2
    rw [h2]
    rfl
  · rw [h2]
    have hcn : countNeg (List.replicate rr.length (-1 : ℚ)) = rr.length := by
      rw [countNeg]
      exact (List.countP_eq_length.mpr fun a ha => by
        rw [List.eq_of_mem_replicate ha]; norm_num).trans (List.length_replicate _ _)
    rw [assignWeightsRow, List.map_replicate]
    congr 1
    rw [if_neg (by norm_num), divByCount, hcn, if_neg (by omega), neg_div]

/-- Witness for C10 (amended) at the all-undefined row `[none, none]`. -/
theorem claim10_witness :
    rankRow [none, none] = List.replicate ([none, none] : Row).length none ∧
    longshortRow 1 [none, none] = List.replicate ([none, none] : Row).length (-1) ∧
    assignWeightsRow (longshortRow 1 [none, none]) =
      List.replicate ([none, none] : Row).length
        (some (-(1 / (([none, none] : Row).length : ℚ)))) :=
  claim10_amended [none, none] 1 (by decide)

/-- Claim C10, counterexample.  On the all-undefined rank row `[none, none]`
(cutoff `2 * 0.5 = 1`), the code does assign leg memberships (`-1` each)
and weights (`-1/2` each), contradicting "no long/short leg membership
and no weight is assigned to any asset for that period". -/
theorem claim10_counterexample :
    rankRow [none, none] = [none, none] ∧
    longshortRow ((2 : ℚ) * (1/2)) (rankRow [none, none]) = [-1, -1] ∧
    assignWeightsRow (longshortRow ((2 : ℚ) * (1/2)) (rankRow [none, none])) =
      [some (-(1/2)), some (-(1/2))] := by
  with_unfolding_all decide

/-! ### Claim C9: behaviour when resampling yields no rows -/

/-- Claim C9, amended. When resampling produces zero rows (which happens
exactly for an empty price index), `generate_weights` raises no error:
it silently returns a weight table of all-missing rows — the empty table
for an empty index.  No `ShapeError` (nor any other exception) exists on
this path in the source. -/
theorem claim9_amended (w plen : ℕ) (split : ℚ) (idx : List ℕ) (prices : List (List ℚ))
    (h : resampleFirst plen idx (momentumSignal w idx prices) = []) :
    generateWeights w plen split idx prices =
      idx.map fun _ => List.replicate (prices.headD []).length none := by
  simp only [generateWeights, periodWeights, h, List.map_nil, reindexBfillRow,
    List.find?_nil]

/-- Witness for C9 (amended) at the empty price table. -/
theorem claim9_witness :
    generateWeights 1 2 (1/2) [] [] =
      ([] : List ℕ).map fun _ =>
        List.replicate (([] : List (List ℚ)).headD []).length none :=
  claim9_amended 1 2 (1/2) [] [] rfl

/-- Claim C9, counterexample. `generate_weights` does not fail on degenerate
inputs: on an empty price table it silently returns the empty weight
table, and on a one-day price history (shorter than one rebalance period
of 30 days, all signals undefined) it silently returns an all-short
`-1/N` weight row instead of raising a `ShapeError`. -/
theorem claim9_counterexample :
    generateWeights 252 30 (1/2) [] [] = [] ∧
    generateWeights 1 30 (1/2) [0] [[1, 1]] = [[some (-(1/2)), some (-(1/2))]] := by
  constructor
  · rfl
  · with_unfolding_all decide

/-! ### Claim C6: days before the first rebalance date -/

/-- Claim C6, counterexample. With daily timestamps `0..3`, a two-day
rebalance period and a one-day momentum window, the first rebalance row
is labelled day `1` and holds the weights `[+1, -1]`; the trading day `0`
lies strictly before that first rebalance date, yet the daily weight
table holds the (back-filled) position `[+1, -1]` there — defined and
non-zero, contradicting "undefined/zero: no position is held". -/
theorem claim6_counterexample :
    (periodWeights 1 2 (1/2) [0, 1, 2, 3] [[1, 1], [2, 1], [2, 1], [2, 1]]).headD
        (0, []) = (1, [some 1, some (-1)]) ∧
    (0 : ℕ) < 1 ∧
    (generateWeights 1 2 (1/2) [0, 1, 2, 3] [[1, 1], [2, 1], [2, 1], [2, 1]]).getD 0 [] =
      [some 1, some (-1)] := by
  refine ⟨?_, by norm_num, ?_⟩ <;> with_unfolding_all decide

/-! ### Back-fill machinery shared by C5 and C6 -/

theorem find?_range'_eq (q : ℕ → Bool) (k : ℕ) :
    ∀ n s : ℕ, s ≤ k → k < s + n → q k = true →
      (∀ m, s ≤ m → m < k → q m = false) →
      (List.range' s n).find? q = some k := by
  intro n
  induction n with
  | zero => intro s h1 h2 _ _; omega
  | succ n ih =>
      intro s h1 h2 hq hmin
      rw [List.range'_succ]
      by_cases hs : s = k
      · subst hs
        exact List.find?_cons_of_pos _ hq
      · have hqs := hmin s le_rfl (by omega)
        rw [List.find?_cons_of_neg _ (by rw [hqs]; exact Bool.false_ne_true)]
        exact ih (s + 1) (by omega) (by omega) hq fun m hm1 hm2 => hmin m (by omega) hm2

theorem find?_map_range {α : Type} (g : ℕ → α) (p : α → Bool) (n k : ℕ)
    (hk : k < n) (hq : p (g k) = true) (hmin : ∀ m, m < k → p (g m) = false) :
    ((List.range n).map g).find? p = some (g k) := by
  rw [List.find?_map, List.range_eq_range',
    find?_range'_eq (p ∘ g) k n 0 (Nat.zero_le k) (by omega) hq
      fun m _ hm => hmin m hm]
  rfl

/-- Structure of the period-level weight table: one row per period from the
first to the last period of the index, labelled by period end. -/
theorem periodWeights_eq (w plen : ℕ) (split : ℚ) (t0 : ℕ) (ts : List ℕ)
    (prices : List (List ℚ)) :
    periodWeights w plen split (t0 :: ts) prices =
      (List.range (ts.getLastD t0 / plen + 1 - t0 / plen)).map fun k =>
        ((t0 / plen + k + 1) * plen - 1,
          assignWeightsRow (longshortRow (((prices.headD []).length : ℚ) * split)
            (rankRow (periodFirstRow plen (t0 :: ts)
              (momentumSignal w (t0 :: ts) prices)
              ((momentumSignal w (t0 :: ts) prices).headD []).length
              (t0 / plen + k))))) := by
  simp only [periodWeights, resampleFirst, List.map_map]
  rfl

theorem sorted_head_le (x : ℕ) (xs : List ℕ) (hs : List.Sorted (· < ·) (x :: xs)) :
    ∀ t ∈ x :: xs, x ≤ t := by
  intro t ht
  rcases List.mem_cons.mp ht with rfl | ht
  · exact le_rfl
  · exact le_of_lt ((List.sorted_cons.mp hs).1 t ht)

theorem sorted_le_getLastD (x : ℕ) (xs : List ℕ) (hs : List.Sorted (· < ·) (x :: xs)) :
    ∀ t ∈ x :: xs, t ≤ xs.getLastD x := by
  induction xs generalizing x with
  | nil =>
      intro t ht
      rcases List.mem_cons.mp ht with rfl | h
      · exact le_rfl
      · simp at h
  | cons y ys ih =>
      intro t ht
      have hs' : List.Sorted (· < ·) (y :: ys) := (List.sorted_cons.mp hs).2
      have hxy : x < y := (List.sorted_cons.mp hs).1 y (List.mem_cons_self y ys)
      rw [List.getLastD_cons]
      rcases List.mem_cons.mp ht with rfl | ht
      · exact le_trans (le_of_lt hxy) (ih y hs' y (List.mem_cons_self y ys))
      · exact ih y hs' t ht

/-- Core back-fill fact: the daily weight row at a trading day `t` is the
period-level weight row of `t`'s own rebalance period (whose label,
the period end, is the first label at or after `t`). -/
theorem daily_eq_weightRowForPeriod (w plen : ℕ) (split : ℚ) (idx : List ℕ)
    (prices : List (List ℚ)) (hplen : 0 < plen)
    (hsort : List.Sorted (· < ·) idx) (t : ℕ) (ht : t ∈ idx)
    (i : ℕ) (hi : i < idx.length) (hit : idx.getD i 0 = t) :
    (generateWeights w plen split idx prices).getD i [] =
      weightRowForPeriod plen (periodWeights w plen split idx prices) (t / plen) := by
  cases idx with
  | nil => simp at ht
  | cons t0 ts =>
    have ht0 : t0 ≤ t := sorted_head_le t0 ts hsort t ht
    have htlast : t ≤ ts.getLastD t0 := sorted_le_getLastD t0 ts hsort t ht
    have hpmin_p : t0 / plen ≤ t / plen := Nat.div_le_div_right ht0
    have hp_pmax : t / plen ≤ ts.getLastD t0 / plen := Nat.div_le_div_right htlast
    have hppl : t / plen * plen ≤ t := Nat.div_mul_le_self t plen
    have hlab_t : t ≤ (t / plen + 1) * plen - 1 := by
      have h1 : t < (t / plen + 1) * plen :=
        (Nat.div_lt_iff_lt_mul hplen).mp (by omega)
      omega
    have hlab_lt : ∀ m, m < t / plen - t0 / plen →
        (t0 / plen + m + 1) * plen - 1 < t := by
      intro m hm
      have hA1 : (t0 / plen + m + 1) * plen ≤ t / plen * plen :=
        Nat.mul_le_mul_right plen (by omega)
      have hA0 : 0 < (t0 / plen + m + 1) * plen :=
        Nat.mul_pos (Nat.succ_pos _) hplen
      omega
    have hk0 : t / plen - t0 / plen < ts.getLastD t0 / plen + 1 - t0 / plen := by
      omega
    have hk0p : t0 / plen + (t / plen - t0 / plen) = t / plen := by omega
    rw [periodWeights_eq]
    simp only [generateWeights]
    rw [getD_map_of_lt _ (t0 :: ts) i hi [] 0, hit, periodWeights_eq]
    rw [reindexBfillRow, weightRowForPeriod]
    rw [find?_map_range _ (fun q : ℕ × Row => decide (t ≤ q.1)) _ (t / plen - t0 / plen) hk0
      (by simp only [decide_eq_true_eq]
          rw [hk0p]
          exact hlab_t)
      (fun m hm => by
          simp only [decide_eq_false_iff_not]
          have h1 := hlab_lt m hm
          omega)]
    rw [find?_map_range _
      (fun q : ℕ × Row => decide (q.1 = (t / plen + 1) * plen - 1)) _
      (t / plen - t0 / plen) hk0
      (by simp only [decide_eq_true_eq]
          rw [hk0p])
      (fun m hm => by
          simp only [decide_eq_false_iff_not]
          have h1 := hlab_lt m hm
          omega)]
    rfl

/-! ### Claim C5: weights constant within a rebalance period -/

/-- Claim C5. For every rebalance date `d` and every trading day `t` of the
price index with `d ≤ t` and no intervening rebalance-period boundary
(every index day `u` with `d < u ≤ t` still lies in `d`'s period), the
daily weight row produced by `generate_weights` at `t` equals the
period-level weight row of `d`'s rebalance period: weights are constant
within a rebalance period and change only at period boundaries. -/
theorem claim5_weights_constant (w plen : ℕ) (split : ℚ) (idx : List ℕ)
    (prices : List (List ℚ)) (hplen : 0 < plen)
    (hsort : List.Sorted (· < ·) idx) (d t : ℕ) (hd : d ∈ idx) (ht : t ∈ idx)
    (hdt : d ≤ t)
    (hbefore : ∀ u ∈ idx, d < u → u ≤ t → u / plen = d / plen)
    (i : ℕ) (hi : i < idx.length) (hit : idx.getD i 0 = t) :
    (generateWeights w plen split idx prices).getD i [] =
      weightRowForPeriod plen (periodWeights w plen split idx prices) (d / plen) := by
  have hpd : t / plen = d / plen := by
    rcases eq_or_lt_of_le hdt with rfl | hlt
    · rfl
    · exact hbefore t ht hlt le_rfl
  rw [daily_eq_weightRowForPeriod w plen split idx prices hplen hsort t ht i hi hit, hpd]

/-- Witness for C5: on the four-day example, the days `2` and `3` lie in
rebalance period `1`, and day `3` receives exactly the period-1 weights. -/
theorem claim5_witness :
    (generateWeights 1 2 (1/2) [0, 1, 2, 3] [[1, 1], [2, 1], [2, 1], [2, 1]]).getD 3 [] =
      weightRowForPeriod 2
        (periodWeights 1 2 (1/2) [0, 1, 2, 3] [[1, 1], [2, 1], [2, 1], [2, 1]])
        (2 / 2) :=
  claim5_weights_constant 1 2 (1/2) [0, 1, 2, 3] [[1, 1], [2, 1], [2, 1], [2, 1]]
    (by decide) (by decide) 2 3 (by decide) (by decide) (by decide)
    (by decide) 3 (by decide) (by decide)

/-! ### Claim C6 (amended): days before the first rebalance date -/

/-- Claim C6, amended. Every trading day strictly before the first rebalance
label still lies in the first rebalance period, and therefore receives —
by back-fill — the first period's weight row, rather than being
undefined/zero.  (The counterexample `claim6_counterexample` exhibits a
non-zero position held on such a day.) -/
theorem claim6_amended (w plen : ℕ) (split : ℚ) (idx : List ℕ)
    (prices : List (List ℚ)) (hplen : 0 < plen)
    (hsort : List.Sorted (· < ·) idx) (t : ℕ) (ht : t ∈ idx)
    (hfirst : t < (idx.headD 0 / plen + 1) * plen - 1)
    (i : ℕ) (hi : i < idx.length) (hit : idx.getD i 0 = t) :
    (generateWeights w plen split idx prices).getD i [] =
      weightRowForPeriod plen (periodWeights w plen split idx prices)
        (idx.headD 0 / plen) := by
  have hpd : t / plen = idx.headD 0 / plen := by
    cases idx with
    | nil => simp at ht
    | cons t0 ts =>
        show t / plen = t0 / plen
        have ht0 : t0 ≤ t := sorted_head_le t0 ts hsort t ht
        have h1 : t0 / plen ≤ t / plen := Nat.div_le_div_right ht0
        have hf : t < (t0 / plen + 1) * plen - 1 := hfirst
        have h2 : t / plen < t0 / plen + 1 := by
          apply (Nat.div_lt_iff_lt_mul hplen).mpr
          omega
        omega
  rw [daily_eq_weightRowForPeriod w plen split idx prices hplen hsort t ht i hi hit, hpd]

/-- Witness for C6 (amended): day `0` lies before the first rebalance label
`1` and receives the first period's weight row. -/
theorem claim6_witness :
    (generateWeights 1 2 (1/2) [0, 1, 2, 3] [[1, 1], [2, 1], [2, 1], [2, 1]]).getD 0 [] =
      weightRowForPeriod 2
        (periodWeights 1 2 (1/2) [0, 1, 2, 3] [[1, 1], [2, 1], [2, 1], [2, 1]])
        (([0, 1, 2, 3] : List ℕ).headD 0 / 2) :=
  claim6_amended 1 2 (1/2) [0, 1, 2, 3] [[1, 1], [2, 1], [2, 1], [2, 1]]
    (by decide) (by decide) 0 (by decide) (by decide) 0 (by decide) (by decide)

/-! ### Percent-change access lemmas (shared by C7 and C1) -/

theorem getD_eq_get {α : Type} (l : List α) (i : ℕ) (h : i < l.length) (d : α) :
    l.getD i d = l.get ⟨i, h⟩ := by
  rw [List.getD_eq_getD_get?, List.get?_eq_get h]
  rfl

theorem pctChangeAux_length (ps : List (List ℚ)) :
    ∀ prev, (pctChangeAux prev ps).length = ps.length := by
  induction ps with
  | nil => intro prev; rfl
  | cons cur rest ih => intro prev; simp [pctChangeAux, ih]

theorem pctChange_length (P : List (List ℚ)) : (pctChange P).length = P.length := by
  cases P with
  | nil => rfl
  | cons p ps => simp [pctChange, pctChangeAux_length]

theorem pctChangeAux_row_length (N : ℕ) :
    ∀ (ps : List (List ℚ)) (prev : List ℚ) (j : ℕ), j < ps.length →
      prev.length = N → (∀ r ∈ ps, r.length = N) →
      ((pctChangeAux prev ps).getD j []).length = N := by
  intro ps
  induction ps with
  | nil => intro prev j hj; simp at hj
  | cons cur rest ih =>
      intro prev j hj hprev hsh
      cases j with
      | zero =>
          show (pctRow prev cur).length = N
          rw [pctRow, List.length_zipWith, hprev,
            hsh cur (List.mem_cons_self cur rest), min_self]
      | succ j =>
          exact ih cur j (by simpa using hj)
            (hsh cur (List.mem_cons_self cur rest))
            fun r hr => hsh r (List.mem_cons_of_mem cur hr)

theorem pctChangeAux_getD (N a : ℕ) (ha : a < N) :
    ∀ (ps : List (List ℚ)) (prev : List ℚ) (j : ℕ), j < ps.length →
      prev.length = N → (∀ r ∈ ps, r.length = N) →
      ((pctChangeAux prev ps).getD j []).getD a none =
        some ((ps.getD j []).getD a 0 / ((prev :: ps).getD j []).getD a 0 - 1) := by
  intro ps
  induction ps with
  | nil => intro prev j hj; simp at hj
  | cons cur rest ih =>
      intro prev j hj hprev hsh
      cases j with
      | zero =>
          show (pctRow prev cur).getD a none = _
          rw [pctRow, getD_zipWith_of_lt _ prev cur a (by omega)
            (by rw [hsh cur (List.mem_cons_self cur rest)]; omega) none 0 0]
          rfl
      | succ j =>
          exact ih cur j (by simpa using hj)
            (hsh cur (List.mem_cons_self cur rest))
            fun r hr => hsh r (List.mem_cons_of_mem cur hr)

theorem const_none_getD (p : List ℚ) (a : ℕ) :
    ((p.map fun _ => (none : Cell))).getD a none = none := by
  rw [List.getD_eq_getD_get?, List.get?_map]
  cases p.get? a <;> rfl

theorem pctChange_row_length (P : List (List ℚ)) (N : ℕ)
    (hshape : ∀ r ∈ P, r.length = N) (i : ℕ) (hi : i < P.length) :
    ((pctChange P).getD i []).length = N := by
  cases P with
  | nil => simp at hi
  | cons p ps =>
      cases i with
      | zero =>
          show (p.map fun _ => (none : Cell)).length = N
          rw [List.length_map, hshape p (List.mem_cons_self p ps)]
      | succ j =>
          exact pctChangeAux_row_length N ps p j (by simpa using hi)
            (hshape p (List.mem_cons_self p ps))
            fun r hr => hshape r (List.mem_cons_of_mem p hr)

theorem pctChange_getD (P : List (List ℚ)) (N a i : ℕ) (ha : a < N) (hi1 : 1 ≤ i)
    (hi2 : i < P.length) (hshape : ∀ r ∈ P, r.length = N) :
    ((pctChange P).getD i []).getD a none =
      some ((P.getD i []).getD a 0 / (P.getD (i - 1) []).getD a 0 - 1) := by
  cases P with
  | nil => simp at hi2
  | cons p ps =>
      cases i with
      | zero => omega
      | succ j =>
          show ((pctChangeAux p ps).getD j []).getD a none = _
          rw [pctChangeAux_getD N a ha ps p j (by simpa using hi2)
            (hshape p (List.mem_cons_self p ps))
            fun r hr => hshape r (List.mem_cons_of_mem p hr)]
          rfl

theorem getD_zip_of_lt {α β : Type} (l1 : List α) (l2 : List β) (i : ℕ)
    (h1 : i < l1.length) (h2 : i < l2.length) (d1 : α) (d2 : β) :
    (l1.zip l2).getD i (d1, d2) = (l1.getD i d1, l2.getD i d2) :=
  getD_zipWith_of_lt Prod.mk l1 l2 i h1 h2 (d1, d2) d1 d2

theorem momentumSignal_getD (w : ℕ) (idx : List ℕ) (prices : List (List ℚ)) (i : ℕ)
    (hi : i < idx.length) (hip : i < (pctChange prices).length) :
    (momentumSignal w idx prices).getD i [] =
      (List.range ((pctChange prices).getD i []).length).map fun a =>
        meanOpt (windowVals w idx (colOf (pctChange prices) a) (idx.getD i 0)) := by
  rw [momentumSignal, rollingMean]
  have hzip : i < (idx.zip (pctChange prices)).length := by
    rw [List.length_zip]; omega
  rw [getD_map_of_lt _ _ i hzip [] (0, []), getD_zip_of_lt idx _ i hi hip 0 []]

/-! ### Claim C7: shape and definedness of the momentum signal -/

/-- Claim C7, amended. For a fully populated price table over a strictly
increasing daily index, the momentum signal table has the same shape as
the price table, but each asset's signal is undefined exactly at the
very first row (where the percent change is undefined) — not for the
whole `rolling_avg_days` warm-up span: the duration-based rolling window
has `min_periods = 1`, so the mean is defined as soon as one percent
change exists. -/
theorem claim7_amended (w : ℕ) (idx : List ℕ) (prices : List (List ℚ)) (N : ℕ)
    (hw : 0 < w) (hsort : List.Sorted (· < ·) idx) (hlen : idx.length = prices.length)
    (hshape : ∀ r ∈ prices, r.length = N)
    (i a : ℕ) (hi : i < prices.length) (ha : a < N) :
    (momentumSignal w idx prices).length = prices.length ∧
    ((momentumSignal w idx prices).getD i []).length = N ∧
    (cellOf (momentumSignal w idx prices) i a = none ↔ i = 0) := by
  have hi' : i < idx.length := by omega
  have hip : i < (pctChange prices).length := by rw [pctChange_length]; omega
  have hrow := pctChange_row_length prices N hshape i hi
  refine ⟨?_, ?_, ?_⟩
  · rw [momentumSignal, rollingMean, List.length_map, List.length_zip,
      pctChange_length, hlen, min_self]
  · rw [momentumSignal_getD w idx prices i hi' hip, List.length_map,
      List.length_range, hrow]
  · rw [cellOf, momentumSignal_getD w idx prices i hi' hip,
      getD_map_range _ _ a (by omega) none]
    rcases Nat.eq_zero_or_pos i with rfl | hi1
    · -- first row: the window sees only the undefined first percent change
      have hempty : windowVals w idx (colOf (pctChange prices) a) (idx.getD 0 0) = [] := by
        rw [windowVals]
        apply List.filterMap_eq_nil.mpr
        intro x hx
        obtain ⟨hxz, hxp⟩ := List.mem_filter.mp hx
        obtain ⟨j, hj⟩ := List.mem_iff_get?.mp hxz
        rw [show idx.zip (colOf (pctChange prices) a) =
            List.zipWith Prod.mk idx (colOf (pctChange prices) a) from rfl,
          get?_zipWith] at hj
        cases hj1 : idx.get? j with
        | none => rw [hj1] at hj; simp at hj
        | some tj =>
            cases hj2 : (colOf (pctChange prices) a).get? j with
            | none => rw [hj1, hj2] at hj; simp at hj
            | some cj =>
                rw [hj1, hj2] at hj
                simp only [Option.some.injEq] at hj
                subst hj
                simp only [Bool.and_eq_true, decide_eq_true_eq] at hxp
                have hj0 : j = 0 := by
                  by_contra hj0
                  have hjlen : j < idx.length := by
                    have := List.get?_eq_some.mp hj1
                    exact this.1
                  have h0len : 0 < idx.length := by omega
                  have hlt : idx.get ⟨0, h0len⟩ < idx.get ⟨j, hjlen⟩ := by
                    have hp := List.pairwise_iff_get.mp hsort
                    exact hp ⟨0, h0len⟩ ⟨j, hjlen⟩
                      (Fin.mk_lt_mk.mpr (Nat.pos_of_ne_zero hj0))
                  have hgj : idx.get ⟨j, hjlen⟩ = tj := by
                    have := List.get?_eq_get hjlen
                    rw [this] at hj1
                    exact Option.some.injEq _ _ ▸ hj1
                  have hg0 : idx.getD 0 0 = idx.get ⟨0, h0len⟩ :=
                    getD_eq_get idx 0 h0len 0
                  rw [hgj] at hlt
                  rw [hg0] at hxp
                  omega
                subst hj0
                -- the first column entry is the undefined first percent change
                cases prices with
                | nil => simp at hi
                | cons p ps =>
                    have : (colOf (pctChange (p :: ps)) a).get? 0 =
                        some ((p.map fun _ => (none : Cell)).getD a none) := rfl
                    rw [this] at hj2
                    simp only [Option.some.injEq] at hj2
                    rw [← hj2, const_none_getD]
      rw [hempty]
      simp [meanOpt]
    · -- later rows: the window contains the defined percent change of day i
      have hv := pctChange_getD prices N a i ha hi1 hi hshape
      have hmem : ((prices.getD i []).getD a 0 / (prices.getD (i - 1) []).getD a 0 - 1) ∈
          windowVals w idx (colOf (pctChange prices) a) (idx.getD i 0) := by
        rw [windowVals]
        apply List.mem_filterMap.mpr
        refine ⟨(idx.getD i 0, ((pctChange prices).getD i []).getD a none), ?_, ?_⟩
        · apply List.mem_filter.mpr
          constructor
          · have hz : (idx.zip (colOf (pctChange prices) a)).get? i =
                some (idx.getD i 0, ((pctChange prices).getD i []).getD a none) := by
              rw [show idx.zip (colOf (pctChange prices) a) =
                  List.zipWith Prod.mk idx (colOf (pctChange prices) a) from rfl,
                get?_zipWith]
              have h1 : idx.get? i = some (idx.getD i 0) := by
                rw [List.get?_eq_get hi', getD_eq_get idx i hi' 0]
              have h2 : (colOf (pctChange prices) a).get? i =
                  some (((pctChange prices).getD i []).getD a none) := by
                rw [colOf, List.get?_map, List.get?_eq_get hip]
                rw [getD_eq_get (pctChange prices) i hip []]
                rfl
              rw [h1, h2]
            exact List.get?_mem hz
          · simp only [Bool.and_eq_true, decide_eq_true_eq]
            omega
        · rw [hv]
      have hne : windowVals w idx (colOf (pctChange prices) a) (idx.getD i 0) ≠ [] :=
        List.ne_nil_of_mem hmem
      obtain ⟨y, ys, hys⟩ := List.exists_cons_of_ne_nil hne
      rw [hys]
      simp [meanOpt]
      omega

/-- Claim C7, counterexample. With a three-day window and daily prices
`1, 2, 4`, the claim as stated says the signal is undefined throughout
the first three days of elapsed time; but the code's rolling mean (the
pandas duration window has `min_periods = 1`) is already defined on day
`1`, one day after the series start. -/
theorem claim7_counterexample :
    cellOf (momentumSignal 3 [0, 1, 2] [[1], [2], [4]]) 1 0 = some 1 ∧
    (1 : ℕ) - 0 < 3 := by
  constructor
  · with_unfolding_all decide
  · norm_num

/-- Witness for C7 (amended) on the same concrete table. -/
theorem claim7_witness :
    (momentumSignal 3 [0, 1, 2] [[1], [2], [4]]).length =
      ([[1], [2], [4]] : List (List ℚ)).length ∧
    ((momentumSignal 3 [0, 1, 2] [[1], [2], [4]]).getD 1 []).length = 1 ∧
    (cellOf (momentumSignal 3 [0, 1, 2] [[1], [2], [4]]) 1 0 = none ↔ (1 : ℕ) = 0) :=
  claim7_amended 3 [0, 1, 2] [[1], [2], [4]] 1 (by decide) (by decide) (by decide)
    (by decide) 1 0 (by decide) (by decide)

/-! ### Claim C3: ranks of a fully defined row are a permutation of 1..N -/

/-- The strict total order realised by `rank(ascending=False,
method='first')`: position `k` precedes position `j` when its value is
strictly larger, or the values are equal and `k` is the earlier column. -/
abbrev Blt (v : List ℚ) (k j : ℕ) : Prop :=
  v.getD j 0 < v.getD k 0 ∨ (v.getD k 0 = v.getD j 0 ∧ k < j)

theorem countP_range_eq_card (n : ℕ) (p : ℕ → Bool) :
    (List.range n).countP p = ((Finset.range n).filter fun k => p k = true).card := by
  induction n with
  | zero => simp
  | succ n ih =>
      rw [List.range_succ, List.countP_append, ih, Finset.range_succ,
        Finset.filter_insert]
      by_cases h : p n = true
      · rw [if_pos h, Finset.card_insert_of_not_mem (by simp)]
        simp [List.countP_cons, h]
      · rw [if_neg h]
        simp [List.countP_cons, h]

theorem map_some_getD (v : List ℚ) (k : ℕ) (hk : k < v.length) :
    (v.map some).getD k none = some (v.getD k 0) :=
  getD_map_of_lt some v k hk none 0

theorem beatsAt_iff (v : List ℚ) (j k : ℕ) (x : ℚ) (hk : k < v.length) :
    (beatsAt (v.map some) j x k = true) ↔
      (x < v.getD k 0 ∨ (v.getD k 0 = x ∧ k < j)) := by
  rw [beatsAt, map_some_getD v k hk]
  simp

theorem rankFun_eq_card (v : List ℚ) (j : ℕ) :
    rankFun v j = 1 + ((Finset.range v.length).filter fun k => Blt v k j).card := by
  rw [rankFun, rankOfPos, List.length_map, countP_range_eq_card]
  have hfe : ((Finset.range v.length).filter
        fun k => beatsAt (v.map some) j (v.getD j 0) k = true) =
      (Finset.range v.length).filter fun k => Blt v k j := by
    apply Finset.filter_congr
    intro k hk
    exact beatsAt_iff v j k (v.getD j 0) (List.mem_range.mp hk)
  rw [hfe]

theorem Blt_trans (v : List ℚ) {a b c : ℕ} (h1 : Blt v a b) (h2 : Blt v b c) :
    Blt v a c := by
  rcases h1 with h1 | ⟨e1, l1⟩ <;> rcases h2 with h2 | ⟨e2, l2⟩
  · exact Or.inl (lt_trans h2 h1)
  · exact Or.inl (by rw [← e2]; exact h1)
  · exact Or.inl (by rw [e1]; exact h2)
  · exact Or.inr ⟨e1.trans e2, lt_trans l1 l2⟩

theorem Blt_irrefl (v : List ℚ) {a : ℕ} (h : Blt v a a) : False := by
  rcases h with h | ⟨_, l⟩
  · exact lt_irrefl _ h
  · exact Nat.lt_irrefl _ l

theorem Blt_total (v : List ℚ) {a b : ℕ} (hab : a ≠ b) : Blt v a b ∨ Blt v b a := by
  rcases lt_trichotomy (v.getD a 0) (v.getD b 0) with h | h | h
  · exact Or.inr (Or.inl h)
  · rcases Nat.lt_or_ge a b with hl | hl
    · exact Or.inl (Or.inr ⟨h, hl⟩)
    · exact Or.inr (Or.inr ⟨h.symm, by omega⟩)
  · exact Or.inl (Or.inl h)

theorem rank_lt_of_Blt (v : List ℚ) {k j : ℕ} (hk : k < v.length)
    (h : Blt v k j) : rankFun v k < rankFun v j := by
  rw [rankFun_eq_card, rankFun_eq_card]
  have hss : (Finset.range v.length).filter (fun m => Blt v m k) ⊂
      (Finset.range v.length).filter (fun m => Blt v m j) := by
    rw [Finset.ssubset_iff_of_subset]
    · exact ⟨k, Finset.mem_filter.mpr ⟨Finset.mem_range.mpr hk, h⟩,
        fun hm => Blt_irrefl v (Finset.mem_filter.mp hm).2⟩
    · intro m hm
      obtain ⟨hm1, hm2⟩ := Finset.mem_filter.mp hm
      exact Finset.mem_filter.mpr ⟨hm1, Blt_trans v hm2 h⟩
  have := Finset.card_lt_card hss
  omega

theorem rank_lt_iff (v : List ℚ) {j k : ℕ} (hj : j < v.length) (hk : k < v.length) :
    rankFun v k < rankFun v j ↔ Blt v k j := by
  constructor
  · intro h
    by_cases hkj : k = j
    · subst hkj
      exact absurd h (lt_irrefl _)
    · rcases Blt_total v hkj with hb | hb
      · exact hb
      · exact absurd (rank_lt_of_Blt v hj hb) (by omega)
  · exact rank_lt_of_Blt v hk

theorem rankFun_bounds (v : List ℚ) {j : ℕ} (hj : j < v.length) :
    1 ≤ rankFun v j ∧ rankFun v j ≤ v.length := by
  rw [rankFun_eq_card]
  refine ⟨by omega, ?_⟩
  have hsub : (Finset.range v.length).filter (fun m => Blt v m j) ⊆
      (Finset.range v.length).erase j := by
    intro m hm
    obtain ⟨hm1, hm2⟩ := Finset.mem_filter.mp hm
    exact Finset.mem_erase.mpr ⟨fun e => Blt_irrefl v (e ▸ hm2), hm1⟩
  have h1 := Finset.card_le_card hsub
  rw [Finset.card_erase_of_mem (Finset.mem_range.mpr hj), Finset.card_range] at h1
  omega

theorem rankFun_injOn (v : List ℚ) {j k : ℕ} (hj : j < v.length) (hk : k < v.length)
    (he : rankFun v j = rankFun v k) : j = k := by
  by_contra hne
  rcases Blt_total v hne with h | h
  · exact absurd (rank_lt_of_Blt v hj h) (by omega)
  · exact absurd (rank_lt_of_Blt v hk h) (by omega)

theorem rank_image (v : List ℚ) :
    (Finset.range v.length).image (rankFun v) = Finset.Icc 1 v.length := by
  apply Finset.eq_of_subset_of_card_le
  · intro m hm
    obtain ⟨j, hj, rfl⟩ := Finset.mem_image.mp hm
    exact Finset.mem_Icc.mpr (rankFun_bounds v (Finset.mem_range.mp hj))
  · rw [Finset.card_image_of_injOn
      fun x hx y hy e => rankFun_injOn v (Finset.mem_range.mp hx)
        (Finset.mem_range.mp hy) e]
    rw [Finset.card_range, Nat.card_Icc]
    omega

theorem ranksOfRow_nodup (v : List ℚ) : (ranksOfRow v).Nodup := by
  rw [ranksOfRow]
  apply List.Nodup.map_on ?_ (List.nodup_range _)
  intro x hx y hy e
  exact rankFun_injOn v (List.mem_range.mp hx) (List.mem_range.mp hy) e

theorem ranksOfRow_perm (v : List ℚ) :
    (ranksOfRow v).Perm ((List.range v.length).map fun k => k + 1) := by
  apply List.perm_of_nodup_nodup_toFinset_eq (ranksOfRow_nodup v)
    (List.Nodup.map (fun a b h => by omega) (List.nodup_range _))
  have h1 : (ranksOfRow v).toFinset = (Finset.range v.length).image (rankFun v) := by
    ext m
    simp [ranksOfRow]
  have h2 : (((List.range v.length).map fun k => k + 1)).toFinset =
      Finset.Icc 1 v.length := by
    ext m
    simp only [List.mem_toFinset, List.mem_map, List.mem_range, Finset.mem_Icc]
    constructor
    · rintro ⟨k, hk, rfl⟩
      omega
    · intro hm
      exact ⟨m - 1, by omega, by omega⟩
  rw [h1, h2, rank_image]

theorem rankRow_map_some (v : List ℚ) :
    rankRow (v.map some) = (ranksOfRow v).map fun n : ℕ => some ((n : ℚ)) := by
  rw [rankRow, List.length_map, ranksOfRow, List.map_map]
  apply List.map_congr_left
  intro j hj
  have hj' : j < v.length := List.mem_range.mp hj
  rw [map_some_getD v j hj']
  rfl

/-- Claim C3. On a rebalance row with `N` assets and no missing signals the
ranks produced by `_rank_signals` are the integers `rankFun v j`
(no fractional ranks), they form a permutation of `1..N` (no repeats,
all of `1..N` hit), and they order positions by descending signal value
with ties broken in favour of the earlier column — in particular the
largest signal receives rank `1`. -/
theorem claim3_rank_permutation (v : List ℚ) (N : ℕ) (hN : v.length = N) :
    rankRow (v.map some) = (ranksOfRow v).map (fun n : ℕ => some ((n : ℚ))) ∧
    (ranksOfRow v).Perm ((List.range N).map fun k => k + 1) ∧
    (∀ j k, j < N → k < N →
      (rankFun v k < rankFun v j ↔
        (v.getD j 0 < v.getD k 0 ∨ (v.getD k 0 = v.getD j 0 ∧ k < j)))) ∧
    (∀ j, j < N → 1 ≤ rankFun v j ∧ rankFun v j ≤ N) := by
  subst hN
  exact ⟨rankRow_map_some v, ranksOfRow_perm v,
    fun j k hj hk => rank_lt_iff v hj hk,
    fun j hj => rankFun_bounds v hj⟩

/-- Witness for C3 on the spec's literal monthly signal row. -/
theorem claim3_witness :
    rankRow ([(14:ℚ)/100, 12/100, 5/100].map some) =
      (ranksOfRow [(14:ℚ)/100, 12/100, 5/100]).map (fun n : ℕ => some ((n : ℚ))) ∧
    (ranksOfRow [(14:ℚ)/100, 12/100, 5/100]).Perm
      ((List.range 3).map fun k => k + 1) ∧
    (∀ j k, j < 3 → k < 3 →
      (rankFun [(14:ℚ)/100, 12/100, 5/100] k < rankFun [(14:ℚ)/100, 12/100, 5/100] j ↔
        (([(14:ℚ)/100, 12/100, 5/100] : List ℚ).getD j 0 <
            ([(14:ℚ)/100, 12/100, 5/100] : List ℚ).getD k 0 ∨
          (([(14:ℚ)/100, 12/100, 5/100] : List ℚ).getD k 0 =
              ([(14:ℚ)/100, 12/100, 5/100] : List ℚ).getD j 0 ∧ k < j)))) ∧
    (∀ j, j < 3 → 1 ≤ rankFun [(14:ℚ)/100, 12/100, 5/100] j ∧
      rankFun [(14:ℚ)/100, 12/100, 5/100] j ≤ 3) :=
  claim3_rank_permutation [(14:ℚ)/100, 12/100, 5/100] 3 rfl

/-! ### Claim C1: the backtester's PnL computation -/

/-- Column `a` of a plain (fully defined) table, as rationals. -/
def colv (l : List (List ℚ)) (a : ℕ) : List ℚ := l.map fun r => r.getD a 0

theorem colOf_map_some_eq (W : List (List ℚ)) (N a : ℕ) (ha : a < N)
    (hW : ∀ r ∈ W, r.length = N) :
    colOf (W.map (List.map some)) a = (colv W a).map some := by
  rw [colOf, colv, List.map_map, List.map_map]
  apply List.map_congr_left
  intro r hr
  show (r.map some).getD a none = some (r.getD a 0)
  exact map_some_getD r a (by rw [hW r hr]; omega)

theorem colOf_pctChangeAux_col (N a : ℕ) (ha : a < N) :
    ∀ (ps : List (List ℚ)) (prev : List ℚ), prev.length = N →
      (∀ r ∈ ps, r.length = N) →
      colOf (pctChangeAux prev ps) a =
        List.zipWith (fun x y => some (y / x - 1)) (colv (prev :: ps) a) (colv ps a) := by
  intro ps
  induction ps with
  | nil => intro prev _ _; rfl
  | cons cur rest ih =>
      intro prev hprev hsh
      show (pctRow prev cur).getD a none :: colOf (pctChangeAux cur rest) a = _
      have hhead : (pctRow prev cur).getD a none =
          some (cur.getD a 0 / prev.getD a 0 - 1) := by
        rw [pctRow, getD_zipWith_of_lt _ prev cur a (by omega)
          (by rw [hsh cur (List.mem_cons_self cur rest)]; omega) none 0 0]
      rw [hhead, ih cur (hsh cur (List.mem_cons_self cur rest))
        fun r hr => hsh r (List.mem_cons_of_mem cur hr)]
      rfl

theorem zipWith_mulOpt_some (xs : List ℚ) :
    ∀ ys : List ℚ, List.zipWith mulOpt (xs.map some) (ys.map some) =
      (List.zipWith (fun x y => x * y) xs ys).map some := by
  induction xs with
  | nil => intro ys; simp
  | cons x xs ih =>
      intro ys
      cases ys with
      | nil => simp
      | cons y ys => simp [mulOpt, ih]

theorem map_optmap_some (f : ℚ → ℚ) (l : List ℚ) :
    (l.map some).map (Option.map f) = (l.map f).map some := by
  rw [List.map_map, List.map_map]
  rfl

theorem cumprodAux_map_some_get? (ys : List ℚ) :
    ∀ (acc : ℚ) (t : ℕ), t < ys.length →
      (cumprodAux acc (ys.map some)).get? t = some (some (acc * ((ys.take (t+1)).prod))) := by
  induction ys with
  | nil => intro acc t ht; simp at ht
  | cons y ys ih =>
      intro acc t ht
      cases t with
      | zero => simp [cumprodAux]
      | succ t =>
          show (cumprodAux (acc * y) (ys.map some)).get? t = _
          rw [ih (acc * y) t (by simpa using ht)]
          have : acc * y * ((ys.take (t+1)).prod) =
              acc * (((y :: ys).take (t+1+1)).prod) := by
            rw [List.take_succ_cons, List.prod_cons]
            ring
          rw [this]

theorem prod_take_eq_prod_range (l : List ℚ) :
    ∀ t, t ≤ l.length → (l.take t).prod = ∏ j in Finset.range t, l.getD j 1 := by
  intro t
  induction t with
  | zero => intro _; simp
  | succ t ih =>
      intro ht
      rw [List.prod_take_succ l t (by omega), Finset.prod_range_succ, ih (by omega)]
      congr 1
      rw [getD_eq_get l t (by omega) 1]
      rfl

theorem prod_range_shift (f : ℕ → ℚ) :
    ∀ t, ∏ j in Finset.range t, f (j + 1) = ∏ s in Finset.Icc 1 t, f s := by
  intro t
  induction t with
  | zero => simp
  | succ t ih => rw [Finset.prod_range_succ, ih, Finset.prod_Icc_succ_top (by omega)]

theorem sum_map_range (f : ℕ → ℚ) :
    ∀ n, ((List.range n).map f).sum = ∑ b in Finset.range n, f b := by
  intro n
  induction n with
  | zero => simp
  | succ n ih =>
      rw [List.range_succ, List.map_append, List.sum_append, Finset.sum_range_succ, ih]
      simp

theorem assetPnls_cell_col (ncols : ℕ) (weights pct : Table) (t a : ℕ)
    (ht : t < min weights.length pct.length) (ha : a < ncols) :
    cellOf (assetPnls ncols weights pct) t a =
      (assetPnlCol (colOf weights a) (colOf pct a)).getD t none := by
  rw [cellOf, assetPnls, getD_map_range _ _ t ht [], getD_map_range _ _ a ha none]

theorem assetPnlCol_get? (x0 : ℚ) (xs ys : List ℚ) (tt : ℕ)
    (h1 : tt < ys.length) (h2 : tt < xs.length) :
    (assetPnlCol ((x0 :: xs).map some) (none :: ys.map some)).get? (tt + 1) =
      some (some (((List.zipWith (fun x y => 1 + x * y) xs ys).take (tt + 1)).prod - 1)) := by
  rw [assetPnlCol]
  have e1 : List.zipWith mulOpt ((x0 :: xs).map some) (none :: ys.map some) =
      none :: (List.zipWith (fun x y => x * y) xs ys).map some := by
    rw [List.map_cons]
    show mulOpt (some x0) none :: List.zipWith mulOpt (xs.map some) (ys.map some) = _
    rw [zipWith_mulOpt_some]
    rfl
  rw [e1, List.map_cons]
  have e2 : Option.map (fun x => (1 : ℚ) + x) none = none := rfl
  rw [e2, map_optmap_some, List.map_zipWith]
  show ((none :: cumprodAux 1
      ((List.zipWith (fun x y => (1:ℚ) + x * y) xs ys).map some)).map
        (Option.map fun x => x - 1)).get? (tt + 1) = _
  rw [List.map_cons, List.get?_cons_succ, List.get?_map,
    cumprodAux_map_some_get? _ 1 tt (by rw [List.length_zipWith]; omega)]
  simp [one_mul]

theorem pnl_cell_eval (P W : List (List ℚ)) (N : ℕ)
    (hP : ∀ r ∈ P, r.length = N) (hW : ∀ r ∈ W, r.length = N)
    (hWP : W.length = P.length) (t a : ℕ) (ha : a < N) (ht1 : 1 ≤ t)
    (ht2 : t < P.length) :
    cellOf (assetPnls N (W.map (List.map some)) (pctChange P)) t a =
      some ((∏ s in Finset.Icc 1 t,
        (1 + (W.getD s []).getD a 0 *
          ((P.getD s []).getD a 0 / (P.getD (s - 1) []).getD a 0 - 1))) - 1) := by
  cases P with
  | nil => simp at ht2
  | cons p ps =>
  cases W with
  | nil => simp at hWP
  | cons w0 ws =>
  have hlenW : ws.length = ps.length := by simpa using hWP
  have ht2' : t < ps.length + 1 := by simpa using ht2
  have htmin : t < min ((w0 :: ws).map (List.map some)).length
      (pctChange (p :: ps)).length := by
    rw [List.length_map, pctChange_length]
    simp only [List.length_cons, hlenW, min_self]
    omega
  rw [assetPnls_cell_col N _ _ t a htmin ha]
  rw [colOf_map_some_eq (w0 :: ws) N a ha hW]
  have hcols : colOf (pctChange (p :: ps)) a =
      none :: List.zipWith (fun x y => some (y / x - 1)) (colv (p :: ps) a)
        (colv ps a) := by
    show ((p.map fun _ => (none : Cell)).getD a none) ::
        colOf (pctChangeAux p ps) a = _
    rw [const_none_getD, colOf_pctChangeAux_col N a ha ps p
      (hP p (List.mem_cons_self p ps)) fun r hr => hP r (List.mem_cons_of_mem p hr)]
  rw [hcols]
  have hys : List.zipWith (fun x y => some (y / x - 1)) (colv (p :: ps) a)
      (colv ps a) =
      (List.zipWith (fun x y => y / x - 1) (colv (p :: ps) a) (colv ps a)).map
        some := by
    rw [List.map_zipWith]
  rw [hys]
  obtain ⟨tt, rfl⟩ : ∃ tt, t = tt + 1 := ⟨t - 1, by omega⟩
  have hkey := assetPnlCol_get? (w0.getD a 0) (colv ws a)
    (List.zipWith (fun x y => y / x - 1) (colv (p :: ps) a) (colv ps a)) tt
    (by rw [List.length_zipWith]; simp [colv]; omega)
    (by simp [colv, hlenW]; omega)
  rw [List.getD_eq_getD_get?]
  show ((assetPnlCol ((w0.getD a 0 :: colv ws a).map some)
      (none :: (List.zipWith (fun x y => y / x - 1) (colv (p :: ps) a)
        (colv ps a)).map some)).get? (tt + 1)).getD none = _
  rw [hkey]
  simp only [Option.getD_some, Option.some.injEq]
  have hzslen : tt + 1 ≤ (List.zipWith (fun x y => (1:ℚ) + x * y) (colv ws a)
      (List.zipWith (fun x y => y / x - 1) (colv (p :: ps) a)
        (colv ps a))).length := by
    rw [List.length_zipWith, List.length_zipWith]
    simp [colv]
    omega
  rw [prod_take_eq_prod_range _ (tt + 1) hzslen, ← prod_range_shift]
  congr 1
  apply Finset.prod_congr rfl
  intro j hj
  have hjlt : j < tt + 1 := Finset.mem_range.mp hj
  rw [getD_zipWith_of_lt _ _ _ j
    (by simp [colv, hlenW]; omega)
    (by rw [List.length_zipWith]; simp [colv]; omega) 1 0 0]
  rw [getD_zipWith_of_lt _ _ _ j
    (by simp [colv]; omega)
    (by simp [colv]; omega) 0 0 0]
  simp only [colv]
  rw [getD_map_of_lt _ ws j (by omega) 0 []]
  rw [getD_map_of_lt _ ps j (by omega) 0 []]
  rw [getD_map_of_lt _ (p :: ps) j (by simp; omega) 0 []]
  simp only [Nat.add_sub_cancel]
  rfl

theorem sumSkipNone_map_some (f : ℕ → ℚ) (n : ℕ) :
    sumSkipNone ((List.range n).map fun b => some (f b)) = ∑ b in Finset.range n, f b := by
  rw [sumSkipNone, List.filterMap_map]
  have hc : (id ∘ fun b => some (f b)) = some ∘ f := rfl
  rw [hc, List.filterMap_eq_map, sum_map_range]

/-- Claim C1. The backtester's PnL: for a fully populated price table `P`, a
daily weight table `W` (such as the one produced by `generate_weights`)
and every row `t ≥ 1` and asset `a`, the asset PnL cell equals the
cumulative product over `s ≤ t` of `1 + W[s,a] * r[s,a]`, minus one,
where `r[s,a] = P[s,a]/P[s-1,a] - 1` is the simple percent change
(undefined at the first row, hence the product runs over `1 ≤ s ≤ t`);
and the total PnL at `t` is the sum over all assets of those asset PnLs. -/
theorem claim1_pnl_formula (P W : List (List ℚ)) (N : ℕ)
    (hP : ∀ r ∈ P, r.length = N) (hW : ∀ r ∈ W, r.length = N)
    (hWP : W.length = P.length) (t a : ℕ) (ha : a < N) (ht1 : 1 ≤ t)
    (ht2 : t < P.length) :
    cellOf (assetPnls N (W.map (List.map some)) (pctChange P)) t a =
      some ((∏ s in Finset.Icc 1 t,
        (1 + (W.getD s []).getD a 0 *
          ((P.getD s []).getD a 0 / (P.getD (s - 1) []).getD a 0 - 1))) - 1) ∧
    (totalPnl (assetPnls N (W.map (List.map some)) (pctChange P))).getD t 0 =
      ∑ b in Finset.range N, ((∏ s in Finset.Icc 1 t,
        (1 + (W.getD s []).getD b 0 *
          ((P.getD s []).getD b 0 / (P.getD (s - 1) []).getD b 0 - 1))) - 1) := by
  refine ⟨pnl_cell_eval P W N hP hW hWP t a ha ht1 ht2, ?_⟩
  have hmin : min (W.map (List.map some)).length (pctChange P).length = P.length := by
    rw [List.length_map, pctChange_length, hWP, min_self]
  have htA : t < (assetPnls N (W.map (List.map some)) (pctChange P)).length := by
    rw [assetPnls, List.length_map, List.length_range, hmin]
    exact ht2
  rw [totalPnl, getD_map_of_lt sumSkipNone _ t htA 0 []]
  rw [assetPnls, getD_map_range _ _ t (by rw [hmin]; exact ht2) []]
  have hrow : ((List.range N).map fun b =>
      (assetPnlCol (colOf (W.map (List.map some)) b)
        (colOf (pctChange P) b)).getD t none) =
      (List.range N).map fun b => some ((∏ s in Finset.Icc 1 t,
        (1 + (W.getD s []).getD b 0 *
          ((P.getD s []).getD b 0 / (P.getD (s - 1) []).getD b 0 - 1))) - 1) := by
    apply List.map_congr_left
    intro b hb
    have hb' : b < N := List.mem_range.mp hb
    have hcell := pnl_cell_eval P W N hP hW hWP t b hb' ht1 ht2
    rw [assetPnls_cell_col N _ _ t b (by rw [hmin]; exact ht2) hb'] at hcell
    exact hcell
  rw [hrow, sumSkipNone_map_some]

/-- Witness for C1: prices `1, 2, 4` for a single asset, constant weight
`1`, evaluated at the third row. -/
theorem claim1_witness :
    cellOf (assetPnls 1 (([[1], [1], [1]] : List (List ℚ)).map (List.map some))
        (pctChange [[1], [2], [4]])) 2 0 =
      some ((∏ s in Finset.Icc 1 2,
        (1 + (([[1], [1], [1]] : List (List ℚ)).getD s []).getD 0 0 *
          ((([[1], [2], [4]] : List (List ℚ)).getD s []).getD 0 0 /
            (([[1], [2], [4]] : List (List ℚ)).getD (s - 1) []).getD 0 0 - 1))) - 1) ∧
    (totalPnl (assetPnls 1 (([[1], [1], [1]] : List (List ℚ)).map (List.map some))
        (pctChange [[1], [2], [4]]))).getD 2 0 =
      ∑ b in Finset.range 1, ((∏ s in Finset.Icc 1 2,
        (1 + (([[1], [1], [1]] : List (List ℚ)).getD s []).getD b 0 *
          ((([[1], [2], [4]] : List (List ℚ)).getD s []).getD b 0 /
            (([[1], [2], [4]] : List (List ℚ)).getD (s - 1) []).getD b 0 - 1))) - 1) :=
  claim1_pnl_formula [[1], [2], [4]] [[1], [1], [1]] 1 (by decide) (by decide)
    (by decide) 2 0 (by decide) (by decide) (by decide)

end DBexercise
